import Mathlib

/-!
Shallow embedding of the `anyes` package (Evolution-Strategies coordination
layer of unixpickle/anyrl) and proofs about it.

Conventions of the embedding:
* Go `float64` values are modelled as `ℚ` (exact arithmetic; the properties
  proved here are sign/structure properties that IEEE floats share).
* Go `int64` / `int` are modelled as `Int`; conversions to `uint64` are made
  explicit with `% 2^64`.  Go `[]byte` is `List Nat`.
* The streams of values produced by `math/rand` (`NormFloat64` draws used by
  `NewNoise`, `Int63` draws of a `rand.Source`) are pure functions of the
  seed in Go; they are kept abstract as function parameters `normFloat` and
  `int63`, so every theorem holds for the actual generator in particular.
* Code that can panic or diverge is `Option`-valued (`none` = panic/hang).
-/

namespace Anyes

/-- Model of `StopConds` from `slave.go`: max time (nanoseconds) and max steps. -/
structure StopCondsM where
  maxTime : Int
  maxSteps : Int
deriving DecidableEq, Repr

/-- Model of `Rollout` from `slave.go`: the result record of one perturbed evaluation. -/
structure RolloutM where
  scale : ℚ
  seed : Int
  reward : ℚ
  steps : Int
  earlyStop : Bool
deriving DecidableEq, Repr, Inhabited

/-! ## Noise (`noise.go`, newer revision `src/unnamed/part_019`) -/

/-- Go's `int` → `uint64` conversion: reduce modulo `2^64`. -/
def uint64OfInt (n : Int) : Nat :=
  (n % (2 ^ 64 : Int)).toNat

/-- The loop body of `log2` from `noise.go`: for `i` starting at the given
index, with `fuel` iterations remaining out of the original 64, return
`some i` when `2^i = u`, stop (panic in Go) when `2^i > u`, otherwise keep
going.  `none` models the `panic("not a power of 2")`. -/
def log2Aux (u : Nat) : Nat → Nat → Option Nat
  | _, 0 => none
  | i, fuel + 1 =>
    if 2 ^ i = u then some i
    else if 2 ^ i > u then none
    else log2Aux u (i + 1) fuel

/-- Model of `log2` from `noise.go`, applied to the `uint64` image of the Go `int`
argument.  Go iterates `i = 0, …, 63` comparing `uint64(1) << i` with
`uint64(n)`; falling through the loop panics. -/
def log2Go (n : Int) : Option Nat :=
  log2Aux (uint64OfInt n) 0 64

/-- The `Noise` struct from `noise.go`: pre-generated table plus `lenLog`. -/
structure NoiseM where
  seed : Int
  data : List ℚ
  lenLog : Nat
deriving DecidableEq, Repr

/-- Model of `NewNoise(seed, length)` from `noise.go`.  `normFloat s i` stands for the
`i`-th draw of `rand.New(rand.NewSource(s)).NormFloat64()` — a pure function
of the seed in Go.  The result is `none` when `log2` panics. -/
def NewNoise (normFloat : Int → Nat → ℚ) (seed : Int) (length : Int) :
    Option NoiseM :=
  (log2Go length).map fun lg =>
    { seed := seed
      data := (List.range length.toNat).map (normFloat seed)
      lenLog := lg }

/-- The inner loop of `randomIndices`: from one 63-bit draw `next`, extract
`⌊63 / L⌋` fields of `L` bits each, low bits first (`next & mask`, then
`next >>= L`). -/
def extractFields (lg : Nat) (next : Nat) : List Nat :=
  (List.range (63 / lg)).map fun j => (next >>> (j * lg)) &&& (2 ^ lg - 1)

/-- Model of `randomIndices` from `noise.go`.  `draw i` stands for the `i`-th
`source.Int63()` value (masked to 63 bits, as Go guarantees).  Each draw
yields `⌊63 / lenLog⌋` indices; the loop runs until at least `size` indices
exist and the result is truncated to `size`.  When `lenLog = 0` and
`size > 0` the Go loop never terminates: modelled as `none`. -/
def randomIndices (draw : Nat → Nat) (lg : Nat) (size : Nat) :
    Option (List Nat) :=
  if size = 0 then some []
  else if 63 / lg = 0 then none
  else
    let perDraw := 63 / lg
    let draws := (size + perDraw - 1) / perDraw
    some ((((List.range draws).map
      fun i => extractFields lg (draw i % 2 ^ 63)).flatten).take size)

/-- The table indices consumed by `Noise.Gen`: derived from the per-call
`seed` only (`rand.NewSource(seed)`), never from the scale. -/
def genIndices (int63 : Int → Nat → Nat) (nz : NoiseM) (seed : Int)
    (amount : Nat) : Option (List Nat) :=
  randomIndices (int63 seed) nz.lenLog amount

/-- Model of `Noise.Gen(scale, seed, amount)` from `noise.go`:
`res[i] = scale * n.data[sourceIdx]` over the derived indices. -/
def NoiseGen (int63 : Int → Nat → Nat) (nz : NoiseM) (scale : ℚ) (seed : Int)
    (amount : Nat) : Option (List ℚ) :=
  (genIndices int63 nz seed amount).map fun idxs =>
    idxs.map fun i => scale * nz.data.getD i 0

/-! ## Theorems about Noise -/

theorem log2Aux_isSome (u : Nat) :
    ∀ (fuel i : Nat),
      (log2Aux u i fuel).isSome ↔ ∃ j, i ≤ j ∧ j < i + fuel ∧ 2 ^ j = u := by
  intro fuel
  induction fuel with
  | zero =>
    intro i
    simp only [log2Aux, Option.isSome_none, Bool.false_eq_true, false_iff]
    rintro ⟨j, h1, h2, _⟩
    omega
  | succ f ih =>
    intro i
    rw [log2Aux]
    by_cases heq : 2 ^ i = u
    · rw [if_pos heq]
      simp only [Option.isSome_some, true_iff]
      exact ⟨i, le_refl i, by omega, heq⟩
    · rw [if_neg heq]
      by_cases hgt : 2 ^ i > u
      · simp only [if_pos hgt, Option.isSome_none, Bool.false_eq_true, false_iff]
        rintro ⟨j, h1, _, h3⟩
        have : 2 ^ i ≤ 2 ^ j := Nat.pow_le_pow_right (by norm_num) h1
        omega
      · rw [if_neg hgt, ih (i + 1)]
        constructor
        · rintro ⟨j, h1, h2, h3⟩
          exact ⟨j, by omega, by omega, h3⟩
        · rintro ⟨j, h1, h2, h3⟩
          refine ⟨j, ?_, by omega, h3⟩
          rcases Nat.eq_or_lt_of_le h1 with h | h
          · exact absurd (h ▸ h3) heq
          · omega

/-- C9 (amended): over the Go `int64` range, `NewNoise(seed, length)` returns
normally iff `length` is a power of two (`2^0 … 2^62`) **or**
`length = -2^63` (whose `uint64` image is `2^63`, matching the loop's last
probe); for every other length it panics deterministically. -/
theorem newNoise_pow2 (normFloat : Int → Nat → ℚ) (seed length : Int)
    (h1 : -(2 ^ 63) ≤ length) (h2 : length < 2 ^ 63) :
    (NewNoise normFloat seed length).isSome
      ↔ ((∃ i, i < 63 ∧ length = 2 ^ i) ∨ length = -(2 ^ 63)) := by
  have hiff : (NewNoise normFloat seed length).isSome
      = (log2Go length).isSome := by
    unfold NewNoise
    cases log2Go length <;> rfl
  rw [hiff, log2Go, log2Aux_isSome]
  have h64 : (2 ^ 64 : Int) = 18446744073709551616 := by norm_num
  have h63 : (2 ^ 63 : Int) = 9223372036854775808 := by norm_num
  rcases le_or_lt 0 length with hpos | hneg
  · -- non-negative length: uint64OfInt length = length
    have hmod : length % (2 ^ 64 : Int) = length := by
      rw [Int.emod_eq_of_lt hpos (by omega)]
    have hcast : (uint64OfInt length : Int) = length := by
      rw [uint64OfInt, hmod]
      exact Int.toNat_of_nonneg hpos
    constructor
    · rintro ⟨j, -, hj64, hpow⟩
      left
      have hjc : (((2 ^ j : Nat) : Int)) = length := by
        rw [← hcast, ← hpow]
      have hjc2 : (2 : Int) ^ j = length := by push_cast at hjc; exact hjc
      refine ⟨j, ?_, hjc2.symm⟩
      by_contra hge
      have hle : (2 : Int) ^ 63 ≤ (2 : Int) ^ j :=
        pow_le_pow_right₀ (by norm_num) (by omega)
      omega
    · rintro (⟨i, hi, hlen⟩ | hlen)
      · refine ⟨i, by omega, by omega, ?_⟩
        have h1 : (((2 ^ i : Nat) : Int)) = length := by
          push_cast
          omega
        have h2 : (((2 ^ i : Nat) : Int)) = (uint64OfInt length : Int) := by
          rw [hcast, h1]
        exact_mod_cast h2
      · omega
  · -- negative length: uint64OfInt length = length + 2^64 ∈ [2^63, 2^64)
    have hmod : length % (2 ^ 64 : Int) = length + 2 ^ 64 := by
      omega
    have hcast : (uint64OfInt length : Int) = length + 2 ^ 64 := by
      rw [uint64OfInt, hmod]
      exact Int.toNat_of_nonneg (by omega)
    constructor
    · rintro ⟨j, -, hj64, hpow⟩
      right
      have hjc : (((2 ^ j : Nat) : Int)) = length + 2 ^ 64 := by
        rw [← hcast, ← hpow]
      have hjc2 : (2 : Int) ^ j = length + 2 ^ 64 := by push_cast at hjc; exact hjc
      have hj63 : 63 ≤ j := by
        by_contra hlt
        have hle : (2 : Int) ^ j ≤ (2 : Int) ^ 62 :=
          pow_le_pow_right₀ (by norm_num) (by omega)
        have h62 : (2 ^ 62 : Int) = 4611686018427387904 := by norm_num
        omega
      have hj : j = 63 := by omega
      subst hj
      omega
    · rintro (⟨i, _, hlen⟩ | hlen)
      · have hp : (0 : Int) < 2 ^ i := by positivity
        generalize hgen : (2 : Int) ^ i = a at hlen hp
        omega
      · refine ⟨63, by omega, by omega, ?_⟩
        have h2 : (((2 ^ 63 : Nat) : Int)) = (uint64OfInt length : Int) := by
          rw [hcast, hlen]
          norm_num
        exact_mod_cast h2

/-- C9 counterexample: `length = -2^63` is not a power of two, yet
`NewNoise` returns normally (its `uint64` conversion hits `1 << 63`). -/
theorem newNoise_pow2_cx :
    (NewNoise (fun _ _ => (0 : ℚ)) 0 (-(2 ^ 63))).isSome = true
      ∧ ∀ i : Nat, -((2 : Int) ^ 63) ≠ 2 ^ i := by
  constructor
  · decide
  · intro i
    have : (0 : Int) < 2 ^ i := by positivity
    omega

/-- C9 witness: the amended equivalence evaluated at `length = 16 = 2^4`. -/
theorem newNoise_pow2_witness :
    (NewNoise (fun _ _ => (0 : ℚ)) 0 16).isSome
      ↔ ((∃ i, i < 63 ∧ (16 : Int) = 2 ^ i) ∨ (16 : Int) = -(2 ^ 63)) :=
  newNoise_pow2 (fun _ _ => (0 : ℚ)) 0 16 (by norm_num) (by norm_num)

/-- C6: `Noise.Gen` is deterministic — two `Noise` instances independently
constructed with the same `(tableSeed, tableLength)` yield bit-identical
`Gen` results for every `(scale, seed, amount)` (and `Gen` itself is a pure
function of the instance, so repeated calls agree a fortiori). -/
theorem noiseGen_deterministic (normFloat : Int → Nat → ℚ)
    (int63 : Int → Nat → Nat) (ts l : Int) (n1 n2 : NoiseM)
    (h1 : NewNoise normFloat ts l = some n1)
    (h2 : NewNoise normFloat ts l = some n2) :
    ∀ (scale : ℚ) (seed : Int) (amount : Nat),
      NoiseGen int63 n1 scale seed amount = NoiseGen int63 n2 scale seed amount := by
  intro scale seed amount
  have : n1 = n2 := by
    have := h1.symm.trans h2
    exact Option.some.inj this
  rw [this]

/-- C6 witness: the determinism theorem applied to the concrete table
`NewNoise 0 2` (with concrete generator streams). -/
theorem noiseGen_deterministic_witness :
    NoiseGen (fun _ _ => 0) ⟨0, [0, 0], 1⟩ 1 5 3
      = NoiseGen (fun _ _ => 0) ⟨0, [0, 0], 1⟩ 1 5 3 :=
  noiseGen_deterministic (fun _ _ => (0 : ℚ)) (fun _ _ => 0) 0 2
    ⟨0, [0, 0], 1⟩ ⟨0, [0, 0], 1⟩ (by decide) (by decide) 1 5 3

/-- C7: `Noise.Gen(-s, seed, n)` is the exact element-wise negation of
`Noise.Gen(s, seed, n)`, and `Gen` factors through `genIndices`, which does
not depend on the scale — both calls sample exactly the same table
indices. -/
theorem noiseGen_negation (int63 : Int → Nat → Nat) (nz : NoiseM) (scale : ℚ)
    (seed : Int) (amount : Nat) :
    NoiseGen int63 nz (-scale) seed amount
        = Option.map (List.map fun x => -x) (NoiseGen int63 nz scale seed amount)
      ∧ ∀ s : ℚ, NoiseGen int63 nz s seed amount
        = (genIndices int63 nz seed amount).map
            (fun idxs => idxs.map fun i => s * nz.data.getD i 0) := by
  refine ⟨?_, fun s => rfl⟩
  unfold NoiseGen
  cases h : genIndices int63 nz seed amount with
  | none => rfl
  | some idxs =>
    simp only [Option.map_some', List.map_map, Option.some.injEq]
    apply List.map_congr_left
    intro i _
    simp only [Function.comp_apply]
    ring

/-! ## Params / SafeParams (`params.go`, newer revision `src/unnamed/part_022`) -/

/-- State of the `safeParams` wrapper produced by `MakeSafe`: a version
counter plus the wrapped `Params` state (abstract type `σ`). -/
structure SafeParamsState (σ : Type) where
  version : Int
  params : σ
deriving Repr

/-- Model of `safeParams.SetData`: run the underlying `Params.SetData` (modelled by
`pSetData`, which returns the mutated state and an optional error);
increment the version only when it succeeded; return the current version
and the error. -/
def spSetData {σ : Type} (pSetData : σ → List Nat → σ × Option String)
    (s : SafeParamsState σ) (d : List Nat) :
    SafeParamsState σ × Int × Option String :=
  let r := pSetData s.params d
  match r.2 with
  | none =>
    let s2 : SafeParamsState σ := ⟨s.version + 1, r.1⟩
    (s2, s2.version, none)
  | some e => (⟨s.version, r.1⟩, s.version, some e)

/-- Model of `safeParams.Update`: run the underlying `Params.Update` (modelled by
`pUpdate`, which cannot fail), increment the version, return it. -/
def spUpdate {σ : Type} (pUpdate : σ → List ℚ → σ)
    (s : SafeParamsState σ) (m : List ℚ) : SafeParamsState σ × Int :=
  (⟨s.version + 1, pUpdate s.params m⟩, s.version + 1)

/-- Model of `safeParams.Version`. -/
def spVersion {σ : Type} (s : SafeParamsState σ) : Int :=
  s.version

/-- C4: for `MakeSafe` parameters, a successful `Update` or `SetData`
increases `Version()` by exactly one, and a `SetData` whose underlying
`Params.SetData` fails leaves `Version()` unchanged. -/
theorem safeParams_version (σ : Type)
    (pSetData : σ → List Nat → σ × Option String) (pUpdate : σ → List ℚ → σ)
    (s : SafeParamsState σ) (d : List Nat) (m : List ℚ) :
    spVersion (spUpdate pUpdate s m).1 = spVersion s + 1
      ∧ ((pSetData s.params d).2 = none →
          spVersion (spSetData pSetData s d).1 = spVersion s + 1)
      ∧ (∀ e, (pSetData s.params d).2 = some e →
          spVersion (spSetData pSetData s d).1 = spVersion s) := by
  refine ⟨rfl, ?_, ?_⟩
  · intro h
    unfold spSetData
    simp only [h]
    rfl
  · intro e h
    unfold spSetData
    simp only [h]
    rfl

/-- C4 witness: the version law evaluated on a concrete `Params`
implementation (state = the byte list; `SetData` fails exactly on empty
input). -/
theorem safeParams_version_witness :
    spVersion (spUpdate (fun p _ => p) ⟨4, [1, 2]⟩ [3]).1 = 5
      ∧ spVersion (spSetData
          (fun p d => if d = [] then (p, some "empty") else (d, none))
          ⟨4, [1, 2]⟩ [9]).1 = 5
      ∧ spVersion (spSetData
          (fun p d => if d = [] then (p, some "empty") else (d, none))
          ⟨4, [1, 2]⟩ []).1 = 4 := by
  have h := safeParams_version (List Nat)
    (fun p d => if d = [] then (p, some "empty") else (d, none))
    (fun p _ => p) ⟨4, [1, 2]⟩ [9] [3]
  have h2 := safeParams_version (List Nat)
    (fun p d => if d = [] then (p, some "empty") else (d, none))
    (fun p _ => p) ⟨4, [1, 2]⟩ [] [3]
  exact ⟨h.1, h.2.1 (by decide), h2.2.2 "empty" (by decide)⟩

/-! ## Reward statistics (`stats.go`, newer revision `src/unnamed/part_023`) -/

/-- Model of `normalize` from `stats.go`: mean-0/variance-1 normalization, except
that an all-equal batch (zero variance) is set to all zeros instead of
dividing by a zero standard deviation.  `sqrtF` stands for `math.Sqrt`. -/
def normalize (sqrtF : ℚ → ℚ) (vals : List ℚ) : List ℚ :=
  let first := vals.headD 0
  let allEqual := vals.all fun x => x = first
  if allEqual then vals.map fun _ => 0
  else
    let mean := vals.sum / vals.length
    let variance := (vals.map fun x => (x - mean) * (x - mean)).sum / vals.length
    let scale := 1 / sqrtF variance
    vals.map fun x => (x - mean) * scale

/-- Model of `Master.scalesAndSeeds` from `master.go`: rewards (optionally
normalized) scaled by `StepSize / (σ² · len)` times the rollout's own
scale, paired with the rollouts' seeds. -/
def scalesAndSeeds (normFlag : Bool) (stepSize sigma : ℚ) (sqrtF : ℚ → ℚ)
    (r : List RolloutM) : List ℚ × List Int :=
  let scales0 := r.map (·.reward)
  let seeds := r.map (·.seed)
  let scales1 := if normFlag then normalize sqrtF scales0 else scales0
  let globalScale := stepSize / (sigma * sigma * (r.length : ℚ))
  (List.zipWith (fun s rt => s * (globalScale * rt.scale)) scales1 r, seeds)

/-- C10: a non-empty all-equal batch is normalized to exactly zero (no
division by the zero standard deviation), and consequently
`Master.Update`'s derived update scales are all exactly zero for a batch
of identical rewards. -/
theorem normalize_all_equal (sqrtF : ℚ → ℚ) (vals : List ℚ)
    (hne : vals ≠ []) (heq : ∀ x ∈ vals, x = vals.headD 0) :
    normalize sqrtF vals = List.replicate vals.length 0
      ∧ ∀ (stepSize sigma : ℚ) (r : List RolloutM),
          r ≠ [] → (∀ rt ∈ r, rt.reward = (r.headD default).reward) →
          ∀ x ∈ (scalesAndSeeds true stepSize sigma sqrtF r).1, x = 0 := by
  constructor
  · have hall : vals.all (fun x => x = vals.headD 0) = true := by
      rw [List.all_eq_true]
      intro x hx
      simp only [decide_eq_true_eq]
      exact heq x hx
    unfold normalize
    simp only [hall, if_true]
    clear hall heq hne
    induction vals with
    | nil => rfl
    | cons a t ih =>
      simp only [List.map_cons, List.length_cons, List.replicate_succ]
      rw [ih]
  · intro stepSize sigma r hr hrew x hx
    have hall : (r.map (·.reward)).all
        (fun x => x = (r.map (·.reward)).headD 0) = true := by
      rw [List.all_eq_true]
      intro y hy
      simp only [decide_eq_true_eq]
      rcases List.mem_map.mp hy with ⟨rt, hrt, rfl⟩
      rw [hrew rt hrt]
      cases r with
      | nil => exact absurd rfl hr
      | cons b t => rfl
    unfold scalesAndSeeds normalize at hx
    simp only [hall, if_true] at hx
    rcases List.mem_iff_getElem.mp hx with ⟨i, hlt, hi⟩
    rw [List.getElem_zipWith] at hi
    subst hi
    simp

/-- C10 witness: the all-equal batch `[3, 3, 3]` normalizes to `[0, 0, 0]`,
and a batch of two rollouts with identical rewards yields all-zero update
scales. -/
theorem normalize_all_equal_witness :
    normalize (fun q => q) [3, 3, 3] = [0, 0, 0]
      ∧ ∀ x ∈ (scalesAndSeeds true 1 2 (fun q => q)
          [⟨2, 5, 7, 0, false⟩, ⟨-2, 5, 7, 0, false⟩]).1, x = 0 := by
  have h := normalize_all_equal (fun q => q) [3, 3, 3] (by decide)
    (by intro x hx; fin_cases hx <;> rfl)
  exact ⟨h.1, h.2 1 2 [⟨2, 5, 7, 0, false⟩, ⟨-2, 5, 7, 0, false⟩]
    (by decide) (by intro rt hrt; fin_cases hrt <;> rfl)⟩

/-! ## Proxy (`src/anyes/proxy.go`) -/

/-- The `packetType` constants from `proxy.go` (`iota`: 0, 1, 2). -/
def packetInit : Nat := 0

def packetRun : Nat := 1

def packetUpdate : Nat := 2

/-- The `packet` struct from `proxy.go`.  It has no checksum field: the
only response payloads are `Rollout` (for Run) and `Err` (for any
request). -/
structure PacketM where
  ptype : Nat
  initSeed : Int
  initSize : Int
  initModel : List Nat
  stop : Option StopCondsM
  scale : ℚ
  seed : Int
  rollout : Option RolloutM
  scales : List ℚ
  seeds : List Int
  err : Option String
deriving DecidableEq, Repr

/-- The zero `packet` (`&packet{}`). -/
def emptyPacket : PacketM :=
  ⟨0, 0, 0, [], none, 0, 0, none, [], [], none⟩

/-- Model of `newPacketErr` from `proxy.go`: the zero packet, with `Err` set when the
error is non-nil. -/
def newPacketErr (e : Option String) : PacketM :=
  { emptyPacket with err := e }

/-- A `Slave` as seen by the proxy, per the interface in `slave.go`:
`Update(scales, seeds)` yields a `Checksum` (uint64, modelled as `Nat`)
and an optional error. -/
structure SlaveUpdateM where
  update : List ℚ → List Int → Nat × Option String

/-- The `packetUpdate` request built by `slaveProxy.Update` on the consume
side: type, scales and seeds; all other fields zero. -/
def updateRequest (scales : List ℚ) (seeds : List Int) : PacketM :=
  { emptyPacket with ptype := packetUpdate, scales := scales, seeds := seeds }

/-- The provide side's handling of an update packet (`ProxyProvide`,
`case packetUpdate`): call the local worker's `Update` with the packet's
`Scales`/`Seeds` and answer with `newPacketErr(err)`.  The checksum the
worker computes is not part of the response (the `packet` struct has no
field for it).  The first component records the exact argument lists the
local worker was invoked with. -/
def provideHandleUpdate (s : SlaveUpdateM) (p : PacketM) :
    (List ℚ × List Int) × PacketM :=
  ((p.scales, p.seeds), newPacketErr (s.update p.scales p.seeds).2)

/-- The consume side's decoding of a response in `slaveProxy.call`: a
non-nil `Err` string becomes an error, otherwise success.  `call` returns
no other data. -/
def consumeCallResult (resp : PacketM) : Option String :=
  resp.err

/-- One full `Update` round trip through the proxy: the consume side builds
the request, the provide side dispatches it to the local worker, and the
consume side decodes the response.  Returns the argument lists the worker
observed and the error the consume side reports. -/
def proxyUpdateRoundTrip (s : SlaveUpdateM) (scales : List ℚ)
    (seeds : List Int) : (List ℚ × List Int) × Option String :=
  let req := updateRequest scales seeds
  let (seen, resp) := provideHandleUpdate s req
  (seen, consumeCallResult resp)

/-- C3 counterexample: two workers whose `Update` results differ only in
the checksum produce byte-identical response packets — the response cannot
carry the worker's resulting checksum, because the `packet` struct of
`proxy.go` has no checksum field and `slaveProxy.Update` returns only an
error. -/
theorem proxyUpdate_no_checksum_cx :
    (provideHandleUpdate ⟨fun _ _ => (5, none)⟩ (updateRequest [1] [2])).2
        = (provideHandleUpdate ⟨fun _ _ => (7, none)⟩ (updateRequest [1] [2])).2
      ∧ ((⟨fun _ _ => (5, none)⟩ : SlaveUpdateM).update [1] [2]).1
        ≠ ((⟨fun _ _ => (7, none)⟩ : SlaveUpdateM).update [1] [2]).1 := by
  exact ⟨rfl, by decide⟩

/-- C3 (amended): for every `Update(scales, seeds)` issued through the
proxy's consume side, the provide side invokes the local worker's `Update`
with the identical scales and seeds lists, and the consume side reports
exactly the worker's error (as an error string) or success; no checksum is
delivered back. -/
theorem proxyUpdate_roundtrip (s : SlaveUpdateM) (scales : List ℚ)
    (seeds : List Int) :
    proxyUpdateRoundTrip s scales seeds
      = ((scales, seeds), (s.update scales seeds).2) := by
  rfl

/-! ## AnynetSlave.Run (`src/anyes/slave.go`) -/

/-- Outcome of the environment-evaluation part of `AnynetSlave.Run`
(everything between the parameter mutation and the deferred restore): it
never touches `Params`.  `ok` covers both normal completion and early
stop (the returned `Rollout` records which); `err` covers `Env.Reset` /
`Env.Step` failures. -/
inductive EpisodeResult where
  | ok (r : RolloutM)
  | err (e : String)

/-- Model of `AnynetSlave.Run` from `slave.go`, as a transformer of the `Params`
state `σ`: read `oldData` via `Data` (returning early on failure), apply
the mutation (`SplitMutation(...).AddToVars()`, modelled by `applyMut`),
run the episode, and — on every exit path from that point — restore via
`SetData(oldData)` in the deferred function, which also surfaces a restore
error only when the episode itself succeeded. -/
def anynetSlaveRun (σ : Type) (pData : σ → Except String (List Nat))
    (pSetData : σ → List Nat → σ × Option String)
    (applyMut : σ → List ℚ → σ) (mutation : List ℚ)
    (episode : EpisodeResult) (s : σ) : σ × Except String RolloutM :=
  match pData s with
  | .error e => (s, .error e)
  | .ok oldData =>
    let s1 := applyMut s mutation
    let restored := pSetData s1 oldData
    match episode with
    | .err e => (restored.1, .error e)
    | .ok r =>
      match restored.2 with
      | some e => (restored.1, .error e)
      | none => (restored.1, .ok r)

/-- C5: whenever the initial `Data` read succeeds with `oldData` and the
underlying `Params.SetData(oldData)` restore succeeds and round-trips,
`AnynetSlave.Run` leaves the `Params` holding exactly the serialized data
they held before the call, on every exit path — normal completion, early
stop, or environment error. -/
theorem anynetSlaveRun_restores (σ : Type)
    (pData : σ → Except String (List Nat))
    (pSetData : σ → List Nat → σ × Option String)
    (applyMut : σ → List ℚ → σ) (mutation : List ℚ)
    (episode : EpisodeResult) (s : σ) (d0 : List Nat)
    (hdata : pData s = .ok d0)
    (hrestore : (pSetData (applyMut s mutation) d0).2 = none)
    (hroundtrip : pData (pSetData (applyMut s mutation) d0).1 = .ok d0) :
    pData (anynetSlaveRun σ pData pSetData applyMut mutation episode s).1
      = .ok d0 := by
  unfold anynetSlaveRun
  rw [hdata]
  cases episode with
  | err e => exact hroundtrip
  | ok r =>
    simp only
    rw [hrestore]
    exact hroundtrip

/-- A concrete `Params.Data` for tests: the state is the byte list itself. -/
def pData0 : List Nat → Except String (List Nat) :=
  fun p => .ok p

/-- C5 witness: the restoration theorem on a concrete `Params` (state =
byte list, `Data`/`SetData` the identity round-trip, mutation appends). -/
theorem anynetSlaveRun_restores_witness :
    pData0 (anynetSlaveRun (List Nat) pData0 (fun _ d => (d, none))
      (fun p _ => 9 :: p) [1] (.ok ⟨1, 2, 3, 4, false⟩) [5, 6]).1
      = .ok [5, 6] :=
  anynetSlaveRun_restores (List Nat) pData0 (fun _ d => (d, none))
    (fun p _ => 9 :: p) [1] (.ok ⟨1, 2, 3, 4, false⟩) [5, 6] [5, 6]
    rfl rfl rfl

/-! ## NoiseGroup (`noise.go`, newer revision `src/unnamed/part_019`)

The single-flight cache of `NoiseGroup.GenSum` is modelled with explicit
state.  Go slices are modelled as `(tag, contents)` pairs where distinct
tags mean distinct backing arrays (separately allocated, hence
independently mutable); `next` is the allocation counter supplying fresh
tags.  The buffered `doneChan` is `chan`: `none` while no result has been
published (reading blocks), `some (tag, contents)` once the computing
caller has sent its copy.  The underlying `noise.GenSum` computation is
abstracted as `nc`. -/

/-- The mutable fields of `NoiseGroup`: the cached call signature, the
result channel, plus the allocation counter of the slice model. -/
structure GroupState where
  scales : List ℚ
  seeds : List Int
  amount : Nat
  chan : Option (Nat × List ℚ)
  next : Nat
deriving Repr

/-- The cache-hit test of `NoiseGroup.GenSum`:
`n.amount == amount && DeepEqual(n.scales, scales) && DeepEqual(n.seeds, seeds)`. -/
def sigMatch (g : GroupState) (scales : List ℚ) (seeds : List Int)
    (amount : Nat) : Prop :=
  g.amount = amount ∧ g.scales = scales ∧ g.seeds = seeds

instance (g : GroupState) (scales : List ℚ) (seeds : List Int) (amount : Nat) :
    Decidable (sigMatch g scales seeds amount) := by
  unfold sigMatch
  infer_instance

/-- The locked section of `NoiseGroup.GenSum`: on a signature match keep the
state and plan to wait on the channel (`false`); otherwise record the new
signature with a fresh empty channel and plan to compute (`true`). -/
def checkStep (g : GroupState) (scales : List ℚ) (seeds : List Int)
    (amount : Nat) : GroupState × Bool :=
  if sigMatch g scales seeds amount then (g, false)
  else (⟨scales, seeds, amount, none, g.next⟩, true)

/-- The unlocked tail of `NoiseGroup.GenSum`.  A computing caller runs the
underlying `noise.GenSum` (slice tag `g.next`), sends a fresh copy into the
channel (tag `g.next + 1`) and returns the original.  A waiting caller
receives the published slice, puts it back, and returns a fresh copy of it
(`append([]float64{}, res...)`); with the channel still empty it blocks
(`none`). -/
def finishStep (nc : List ℚ → List Int → Nat → List ℚ) (scales : List ℚ)
    (seeds : List Int) (amount : Nat) (g : GroupState) (computed : Bool) :
    Option (GroupState × (Nat × List ℚ)) :=
  if computed then
    let res := nc scales seeds amount
    some (⟨g.scales, g.seeds, g.amount, some (g.next + 1, res), g.next + 2⟩,
      (g.next, res))
  else
    match g.chan with
    | none => none
    | some c =>
      some (⟨g.scales, g.seeds, g.amount, some c, g.next + 1⟩, (g.next, c.2))

/-- One complete `NoiseGroup.GenSum` call: the locked check followed by the
compute-or-wait tail.  The `Bool` records whether this call performed the
underlying computation. -/
def groupGenSumCall (nc : List ℚ → List Int → Nat → List ℚ) (g : GroupState)
    (scales : List ℚ) (seeds : List Int) (amount : Nat) :
    Option (GroupState × (Nat × List ℚ) × Bool) :=
  let cb := checkStep g scales seeds amount
  (finishStep nc scales seeds amount cb.1 cb.2).map fun gr => (gr.1, gr.2, cb.2)

/-- Two `GenSum` calls with the same signature in immediate succession:
returns both results and both compute flags. -/
def groupCallSeq2 (nc : List ℚ → List Int → Nat → List ℚ) (g0 : GroupState)
    (scales : List ℚ) (seeds : List Int) (amount : Nat) :
    Option ((Nat × List ℚ) × (Nat × List ℚ) × Bool × Bool) :=
  match groupGenSumCall nc g0 scales seeds amount with
  | none => none
  | some (g1, r1, b1) =>
    match groupGenSumCall nc g1 scales seeds amount with
    | none => none
    | some (_, r2, b2) => some (r1, r2, b1, b2)

/-- Two concurrent `GenSum` calls with the same signature, interleaved as
check₁, check₂, finish₁, finish₂ (the only overlapped schedule the mutex
and the blocking channel allow to complete). -/
def groupCallOverlap2 (nc : List ℚ → List Int → Nat → List ℚ)
    (g0 : GroupState) (scales : List ℚ) (seeds : List Int) (amount : Nat) :
    Option ((Nat × List ℚ) × (Nat × List ℚ) × Bool × Bool) :=
  let c1 := checkStep g0 scales seeds amount
  let c2 := checkStep c1.1 scales seeds amount
  match finishStep nc scales seeds amount c2.1 c1.2 with
  | none => none
  | some (g2, r1) =>
    match finishStep nc scales seeds amount g2 c2.2 with
    | none => none
    | some (_, r2) => some (r1, r2, c1.2, c2.2)

/-- C8: two `NoiseGroup.GenSum` calls with an identical
`(scales, seeds, amount)` signature — in immediate succession or
overlapped — both complete with identical contents backed by distinct
allocations (independently mutable copies), and the second caller never
performs the underlying computation (so the pair performs it at most
once). -/
theorem noiseGroup_single_flight (nc : List ℚ → List Int → Nat → List ℚ)
    (g0 : GroupState) (scales : List ℚ) (seeds : List Int) (amount : Nat)
    (hwf : sigMatch g0 scales seeds amount → g0.chan.isSome) :
    (∃ r1 r2 b1, groupCallSeq2 nc g0 scales seeds amount
        = some (r1, r2, b1, false) ∧ r1.2 = r2.2 ∧ r1.1 ≠ r2.1)
      ∧ (∃ r1 r2 b1, groupCallOverlap2 nc g0 scales seeds amount
        = some (r1, r2, b1, false) ∧ r1.2 = r2.2 ∧ r1.1 ≠ r2.1) := by
  obtain ⟨gs, gd, ga, gch, gn⟩ := g0
  by_cases hm : sigMatch ⟨gs, gd, ga, gch, gn⟩ scales seeds amount
  · -- already-cached signature: both callers read the published copy
    have hsome := hwf hm
    obtain ⟨e1, e2, e3⟩ := hm
    subst e1
    subst e2
    subst e3
    cases gch with
    | none => simp at hsome
    | some c =>
      refine ⟨⟨(gn, c.2), (gn + 1, c.2), false, ?_, rfl, by omega⟩,
        ⟨(gn, c.2), (gn + 1, c.2), false, ?_, rfl, by omega⟩⟩
      · simp [groupCallSeq2, groupGenSumCall, checkStep, finishStep, sigMatch]
      · simp [groupCallOverlap2, checkStep, finishStep, sigMatch]
  · -- fresh signature: the first caller computes, the second waits
    have hm' : ¬(ga = amount ∧ gs = scales ∧ gd = seeds) := by
      simpa [sigMatch] using hm
    refine ⟨⟨(gn, nc scales seeds amount), (gn + 2, nc scales seeds amount),
        true, ?_, rfl, by omega⟩,
      ⟨(gn, nc scales seeds amount), (gn + 2, nc scales seeds amount),
        true, ?_, rfl, by omega⟩⟩
    · simp [groupCallSeq2, groupGenSumCall, checkStep, finishStep, sigMatch,
        hm']
    · simp [groupCallOverlap2, checkStep, finishStep, sigMatch, hm']

/-- C8 witness: the single-flight theorem on a concrete group state and
signature (fresh-signature case, with a concrete `noise.GenSum`). -/
theorem noiseGroup_single_flight_witness :
    (∃ r1 r2 b1, groupCallSeq2 (fun _ _ n => List.replicate n 2)
        ⟨[], [], 0, none, 0⟩ [1] [4] 2
        = some (r1, r2, b1, false) ∧ r1.2 = r2.2 ∧ r1.1 ≠ r2.1)
      ∧ (∃ r1 r2 b1, groupCallOverlap2 (fun _ _ n => List.replicate n 2)
        ⟨[], [], 0, none, 0⟩ [1] [4] 2
        = some (r1, r2, b1, false) ∧ r1.2 = r2.2 ∧ r1.1 ≠ r2.1) :=
  noiseGroup_single_flight (fun _ _ n => List.replicate n 2)
    ⟨[], [], 0, none, 0⟩ [1] [4] 2 (by decide)

/-! ## Master.Update (`master.go`, `src/unnamed/part_020`)

`Master.Update` derives `(scales, seeds)` from the rollouts
(`scalesAndSeeds` above), commits locally through `SafeParams.Update`
(`localUpdate`, so the post-update version is the pre-update version plus
one), and then walks the registered slaves: a slave already at the new
version is skipped, a slave at neither version aborts with a fatal
`parameter version inconsistency` error, and every other slave (at the old
version) is sent `Update(scales, seeds)` — advancing its recorded version
on success, being removed (and the failure hook consulted) on failure.
Each slave's dispatch is independent, so the concurrent fan-out is
modelled by the per-slave outcome list. -/

/-- A registered `managedSlave`: the slave's identity and its recorded
parameter version. -/
structure ManagedSlave where
  slaveId : Nat
  version : Int
deriving DecidableEq, Repr

/-- The per-slave outcome of the push phase of `Master.Update`. -/
inductive SlaveFate where
  | skipped
  | updated
  | removed
deriving DecidableEq, Repr

/-- The slave-push loop of `Master.Update`.  `upd s scales seeds` is the
success/failure of `slave.Slave.Update(scales, seeds)` for slave `s`.
The checks mirror the Go loop order: version already `newV` → skip;
version neither `newV` nor `oldV` → immediate fatal error; otherwise
dispatch, advancing the version on success and removing the slave on
failure. -/
def pushUpdate (upd : Nat → List ℚ → List Int → Bool) (oldV newV : Int)
    (scales : List ℚ) (seeds : List Int) :
    List ManagedSlave → Except String (List (ManagedSlave × SlaveFate))
  | [] => .ok []
  | s :: rest =>
    if s.version = newV then
      (pushUpdate upd oldV newV scales seeds rest).map
        fun t => (s, .skipped) :: t
    else if s.version ≠ oldV then
      .error "parameter version inconsistency"
    else if upd s.slaveId scales seeds then
      (pushUpdate upd oldV newV scales seeds rest).map
        fun t => (⟨s.slaveId, newV⟩, .updated) :: t
    else
      (pushUpdate upd oldV newV scales seeds rest).map
        fun t => (s, .removed) :: t

/-- Model of `Master.Update`: commit locally via `SafeParams.Update` (capturing the
pre-update version and producing the post-update version), then push to the
slaves.  `vec` is the `Noise.GenSum` mutation vector of `localUpdate`. -/
def masterUpdate (σ : Type) (pUpdate : σ → List ℚ → σ)
    (upd : Nat → List ℚ → List Int → Bool) (scales : List ℚ)
    (seeds : List Int) (sp : SafeParamsState σ) (vec : List ℚ)
    (slaves : List ManagedSlave) :
    SafeParamsState σ × Except String (List (ManagedSlave × SlaveFate)) :=
  let oldV := spVersion sp
  let committed := spUpdate pUpdate sp vec
  (committed.1, pushUpdate upd oldV committed.2 scales seeds slaves)

theorem pushUpdate_consistent (upd : Nat → List ℚ → List Int → Bool)
    (oldV : Int) (scales : List ℚ) (seeds : List Int) :
    ∀ slaves : List ManagedSlave,
      (∀ s ∈ slaves, s.version = oldV ∨ s.version = oldV + 1) →
      pushUpdate upd oldV (oldV + 1) scales seeds slaves
        = .ok (slaves.map fun s =>
            if s.version = oldV + 1 then (s, .skipped)
            else if upd s.slaveId scales seeds then
              (⟨s.slaveId, oldV + 1⟩, .updated)
            else (s, .removed)) := by
  intro slaves
  induction slaves with
  | nil => intro _; rfl
  | cons s rest ih =>
    intro hcons
    have hs := hcons s (by simp)
    have hrest := ih fun t ht => hcons t (by simp [ht])
    rw [pushUpdate]
    by_cases h1 : s.version = oldV + 1
    · rw [if_pos h1, hrest]
      simp [h1, Except.map]
    · have h0 : s.version = oldV := by
        rcases hs with h | h
        · exact h
        · exact absurd h h1
      rw [if_neg h1, if_neg (by simp [h0]), List.map_cons, if_neg h1]
      by_cases h2 : upd s.slaveId scales seeds
      · rw [if_pos h2, if_pos h2, hrest]
        rfl
      · rw [if_neg h2, if_neg h2, hrest]
        rfl

theorem pushUpdate_inconsistent (upd : Nat → List ℚ → List Int → Bool)
    (oldV : Int) (scales : List ℚ) (seeds : List Int) :
    ∀ slaves : List ManagedSlave,
      (∃ s ∈ slaves, s.version ≠ oldV ∧ s.version ≠ oldV + 1) →
      pushUpdate upd oldV (oldV + 1) scales seeds slaves
        = .error "parameter version inconsistency" := by
  intro slaves
  induction slaves with
  | nil => intro hbad; simp at hbad
  | cons s rest ih =>
    intro hbad
    rw [pushUpdate]
    rcases hbad with ⟨t, ht, htold, htnew⟩
    rcases List.mem_cons.mp ht with rfl | htr
    · rw [if_neg htnew, if_pos htold]
    · by_cases h1 : s.version = oldV + 1
      · rw [if_pos h1, ih ⟨t, htr, htold, htnew⟩]
        rfl
      · by_cases h0 : s.version = oldV
        · rw [if_neg h1, if_neg (by simp [h0]), ih ⟨t, htr, htold, htnew⟩]
          by_cases h2 : upd s.slaveId scales seeds
          · rw [if_pos h2]
            rfl
          · rw [if_neg h2]
            rfl
        · rw [if_neg h1, if_pos h0]

/-- C2: in `Master.Update`, when every registered slave's recorded version
is the pre- or post-update version, slaves at the post-update version are
skipped and every slave at the pre-update version receives
`Update(scales, seeds)` — its recorded version advancing to the post-update
version exactly when that call succeeds (failures are removed); and when
any slave's recorded version is neither, the call returns the fatal
`parameter version inconsistency` error (no retry path exists). -/
theorem masterUpdate_version_protocol (σ : Type) (pUpdate : σ → List ℚ → σ)
    (upd : Nat → List ℚ → List Int → Bool) (scales : List ℚ)
    (seeds : List Int) (sp : SafeParamsState σ) (vec : List ℚ)
    (slaves : List ManagedSlave) :
    ((∀ s ∈ slaves, s.version = spVersion sp ∨ s.version = spVersion sp + 1) →
        (masterUpdate σ pUpdate upd scales seeds sp vec slaves).2
          = .ok (slaves.map fun s =>
              if s.version = spVersion sp + 1 then (s, .skipped)
              else if upd s.slaveId scales seeds then
                (⟨s.slaveId, spVersion sp + 1⟩, .updated)
              else (s, .removed)))
      ∧ ((∃ s ∈ slaves, s.version ≠ spVersion sp
            ∧ s.version ≠ spVersion sp + 1) →
        (masterUpdate σ pUpdate upd scales seeds sp vec slaves).2
          = .error "parameter version inconsistency") := by
  have hmu : (masterUpdate σ pUpdate upd scales seeds sp vec slaves).2
      = pushUpdate upd (spVersion sp) (spVersion sp + 1) scales seeds slaves :=
    rfl
  rw [hmu]
  exact ⟨pushUpdate_consistent upd (spVersion sp) scales seeds slaves,
    pushUpdate_inconsistent upd (spVersion sp) scales seeds slaves⟩

/-- C2 witness: the version protocol evaluated on concrete slave pools —
a consistent pool (one slave already at the new version, one updating
successfully, one failing) and a pool containing a diverged slave. -/
theorem masterUpdate_version_protocol_witness :
    (masterUpdate Unit (fun p _ => p) (fun i _ _ => i = 1) [2] [3]
        ⟨10, ()⟩ [] [⟨0, 11⟩, ⟨1, 10⟩, ⟨2, 10⟩]).2
        = .ok [(⟨0, 11⟩, .skipped), (⟨1, 11⟩, .updated), (⟨2, 10⟩, .removed)]
      ∧ (masterUpdate Unit (fun p _ => p) (fun i _ _ => i = 1) [2] [3]
        ⟨10, ()⟩ [] [⟨0, 10⟩, ⟨3, 7⟩]).2
        = .error "parameter version inconsistency" := by
  have h1 := (masterUpdate_version_protocol Unit (fun p _ => p)
    (fun i _ _ => i = 1) [2] [3] ⟨10, ()⟩ []
    [⟨0, 11⟩, ⟨1, 10⟩, ⟨2, 10⟩]).1 (by decide)
  have h2 := (masterUpdate_version_protocol Unit (fun p _ => p)
    (fun i _ _ => i = 1) [2] [3] ⟨10, ()⟩ [] [⟨0, 10⟩, ⟨3, 7⟩]).2
    ⟨⟨3, 7⟩, by decide, by decide, by decide⟩
  exact ⟨by rw [h1]; rfl, h2⟩

/-! ## Master.Rollouts (`master.go`, `src/unnamed/part_020`)

`Master.Rollouts(stop, n)` fills the job channel with `n` antithetic pairs
— one fresh seed per pair, scales `-1·σ` and `+1·σ` — and then drives the
jobs to completion over the slave pool: jobs are repeatedly assigned to
idle slaves and each assigned job's `Run` result is appended to the result
list, until `2n` results exist.  Under the no-error assumption of the
claim, a job is consumed from the channel exactly once and contributes
exactly one rollout; the concurrent goroutine execution is modelled by a
small-step scheduler over multisets (assignment order and completion order
are arbitrary). -/

/-- The `n` antithetic job pairs generated at the top of `Rollouts`
(`jobs <- {Scale: scale * m.NoiseStddev, Seed: seed}` for
`scale ∈ {-1, 1}`).  `sg i` stands for the `i`-th `rand.Int63()` seed
draw. -/
def rolloutJobs (sigma : ℚ) (sg : Nat → Int) (n : Nat) : List (ℚ × Int) :=
  (List.range n).flatMap fun i =>
    ([-1, 1] : List ℚ).map fun c => (c * sigma, sg i)

/-- The job channel contents as a multiset (the channel order is irrelevant
to the claim). -/
def rolloutJobsM (sigma : ℚ) (sg : Nat → Int) (n : Nat) : Multiset (ℚ × Int) :=
  (rolloutJobs sigma sg n : List (ℚ × Int))

/-- A state of the `Rollouts` scheduling loop: jobs still in the channel,
jobs assigned to a running slave, and rollouts already collected. -/
structure SchedState where
  pending : Multiset (ℚ × Int)
  running : Multiset (ℚ × Int)
  done : Multiset RolloutM
deriving DecidableEq

/-- The no-failure transitions of the `Rollouts` loop: `assign` moves a
pending job to an idle slave (`assignJobs`), `finish` completes a running
job, appending the rollout `run j` produced by the slave's `Run` to the
results (`resChan`).  `run j` abstracts the slave's evaluation of job `j`;
error paths are absent because the claim assumes no `Run` call fails. -/
inductive RolloutsStep (run : ℚ × Int → RolloutM) :
    SchedState → SchedState → Prop where
  | assign (st : SchedState) (j : ℚ × Int) (hj : j ∈ st.pending) :
      RolloutsStep run st ⟨st.pending.erase j, j ::ₘ st.running, st.done⟩
  | finish (st : SchedState) (j : ℚ × Int) (hj : j ∈ st.running) :
      RolloutsStep run st ⟨st.pending, st.running.erase j, run j ::ₘ st.done⟩

/-- The conserved quantity of the scheduler: every job is either pending,
running, or accounted for by a collected rollout. -/
def schedJobs (st : SchedState) : Multiset (ℚ × Int) :=
  st.pending + st.running + st.done.map fun r => (r.scale, r.seed)

theorem schedJobs_step (run : ℚ × Int → RolloutM)
    (hrun : ∀ j, ((run j).scale, (run j).seed) = j) {a b : SchedState}
    (h : RolloutsStep run a b) : schedJobs b = schedJobs a := by
  cases h with
  | assign j hj =>
    show a.pending.erase j + (j ::ₘ a.running) + _ = _
    rw [← Multiset.singleton_add]
    conv_rhs => rw [schedJobs, ← Multiset.cons_erase hj,
      ← Multiset.singleton_add]
    abel
  | finish j hj =>
    show a.pending + a.running.erase j
        + (run j ::ₘ a.done).map (fun r => (r.scale, r.seed)) = _
    rw [Multiset.map_cons, hrun j, ← Multiset.singleton_add]
    conv_rhs => rw [schedJobs, ← Multiset.cons_erase hj,
      ← Multiset.singleton_add]
    abel

theorem schedJobs_reach (run : ℚ × Int → RolloutM)
    (hrun : ∀ j, ((run j).scale, (run j).seed) = j) {a b : SchedState}
    (h : Relation.ReflTransGen (RolloutsStep run) a b) :
    schedJobs b = schedJobs a := by
  induction h with
  | refl => rfl
  | tail _ hstep ih => rw [schedJobs_step run hrun hstep, ih]

theorem rolloutJobsM_eq_pairs (sigma : ℚ) (sg : Nat → Int) (n : Nat) :
    rolloutJobsM sigma sg n
      = (((List.range n).map fun i =>
          ({(-sigma, sg i), (sigma, sg i)} : Multiset (ℚ × Int)))).sum := by
  induction n with
  | zero => rfl
  | succ m ih =>
    rw [rolloutJobsM, rolloutJobs, List.range_succ, List.flatMap_append,
      List.map_append, List.sum_append]
    rw [← Multiset.coe_add]
    rw [show ((((List.range m).flatMap fun i =>
        ([-1, 1] : List ℚ).map fun c => (c * sigma, sg i)) : List (ℚ × Int))
        : Multiset (ℚ × Int))
      = rolloutJobsM sigma sg m from rfl, ih]
    congr 1
    show ((([(-1 * sigma, sg m), (1 * sigma, sg m)] : List (ℚ × Int)))
        : Multiset (ℚ × Int)) = _
    simp only [List.map_cons, List.map_nil, List.sum_cons, List.sum_nil,
      add_zero, neg_one_mul, one_mul]
    rfl

theorem rolloutJobs_length (sigma : ℚ) (sg : Nat → Int) (n : Nat) :
    (rolloutJobs sigma sg n).length = 2 * n := by
  induction n with
  | zero => rfl
  | succ m ih =>
    rw [rolloutJobs, List.range_succ, List.flatMap_append]
    rw [List.length_append,
      show ((List.range m).flatMap fun i =>
        ([-1, 1] : List ℚ).map fun c => (c * sigma, sg i))
      = rolloutJobs sigma sg m from rfl, ih]
    simp
    omega

/-- C1: any completed no-failure run of the `Rollouts` scheduler (all jobs
drained, no job still running) collects exactly `2n` rollouts, and there
are `n` seeds — the `n` per-pair seed draws — such that the collected
rollouts' `(scale, seed)` pairs are exactly one `(-σ, seed)` and one
`(+σ, seed)` rollout per seed, where `σ` is the configured
`NoiseStddev`.  `hrun` states that a slave's `Run` reports the job's scale
and seed in the returned rollout. -/
theorem master_rollouts_antithetic (sigma : ℚ) (sg : Nat → Int)
    (run : ℚ × Int → RolloutM) (n : Nat) (st : SchedState)
    (hrun : ∀ j, ((run j).scale, (run j).seed) = j)
    (hreach : Relation.ReflTransGen (RolloutsStep run)
      ⟨rolloutJobsM sigma sg n, 0, 0⟩ st)
    (hpend : st.pending = 0) (hrunning : st.running = 0) :
    Multiset.card st.done = 2 * n
      ∧ ∃ seeds : List Int, seeds.length = n
        ∧ st.done.map (fun r => (r.scale, r.seed))
          = (seeds.map fun s =>
              ({(-sigma, s), (sigma, s)} : Multiset (ℚ × Int))).sum := by
  have hinv := schedJobs_reach run hrun hreach
  rw [schedJobs, schedJobs, hpend, hrunning] at hinv
  simp only [Multiset.map_zero, add_zero, zero_add] at hinv
  have hdone : st.done.map (fun r => (r.scale, r.seed))
      = rolloutJobsM sigma sg n := hinv
  constructor
  · have h1 : Multiset.card (st.done.map fun r => (r.scale, r.seed))
        = Multiset.card st.done := Multiset.card_map _ _
    rw [hdone] at h1
    rw [← h1, rolloutJobsM, Multiset.coe_card, rolloutJobs_length]
  · refine ⟨(List.range n).map sg, by simp, ?_⟩
    rw [hdone, List.map_map, rolloutJobsM_eq_pairs]
    rfl

/-- C1 witness: a concrete complete schedule for `n = 1` (seed 7,
`σ = 1`): two rollouts, one per sign. -/
theorem master_rollouts_antithetic_witness :
    Multiset.card ((⟨0, 0,
        {⟨1, 7, 0, 0, false⟩, ⟨-1, 7, 0, 0, false⟩}⟩ : SchedState).done)
        = 2 * 1
      ∧ ∃ seeds : List Int, seeds.length = 1
        ∧ ((⟨0, 0, {⟨1, 7, 0, 0, false⟩, ⟨-1, 7, 0, 0, false⟩}⟩ :
            SchedState).done.map (fun r => (r.scale, r.seed))
          = (seeds.map fun s =>
              ({(-1, s), (1, s)} : Multiset (ℚ × Int))).sum) := by
  refine master_rollouts_antithetic 1 (fun _ => 7)
    (fun j => ⟨j.1, j.2, 0, 0, false⟩) 1
    ⟨0, 0, {⟨1, 7, 0, 0, false⟩, ⟨-1, 7, 0, 0, false⟩}⟩
    (fun j => rfl) ?_ rfl rfl
  have hjobs : rolloutJobsM 1 (fun _ => 7) 1
      = ({((-1 : ℚ), (7 : Int)), ((1 : ℚ), (7 : Int))} : Multiset (ℚ × Int)) := by
    simp [rolloutJobsM, rolloutJobs, List.range_succ]
    rfl
  rw [hjobs]
  refine Relation.ReflTransGen.head
    (RolloutsStep.assign _ ((-1 : ℚ), (7 : Int)) (by simp)) ?_
  refine Relation.ReflTransGen.head
    (RolloutsStep.finish _ ((-1 : ℚ), (7 : Int)) (by simp)) ?_
  refine Relation.ReflTransGen.head
    (RolloutsStep.assign _ ((1 : ℚ), (7 : Int))
      (by simp [Multiset.insert_eq_cons, Multiset.erase_cons_head])) ?_
  refine Relation.ReflTransGen.head
    (RolloutsStep.finish _ ((1 : ℚ), (7 : Int)) (by simp)) ?_
  convert Relation.ReflTransGen.refl

end Anyes
